import Mathlib

/-! Peer layer-presence registry (`internal/store/redis.go`).

A shallow embedding of `RedisStore` and its five operations `Add`, `Remove`,
`Get`, `ResetExpiration` and `Dump`.

The registry talks to two collaborators: the store client and peer discovery.
Both are external, so the embedding takes their answers as data:

* a `Client` answers each command as a function of the *history* of commands
  the store has received so far (oldest first).  Any deterministic store,
  including one whose calls fail at arbitrary moments, is such a function;
* the answer of `GetPeers` is a value of type `Except Err (List String)`.

Every operation takes the history before the call and returns its Go result
together with the history after the call, so the commands an operation issued
are exactly the suffix it appended.
-/

namespace Spegel

/-! ## Errors -/

/-- A Go `error` value.  `redisNil` is `rueidis.Nil` (the reply of a read of an
absent key), `other` is any other failure, and `multi` is the composite error
built by `multierr`. -/
inductive Err where
  | redisNil
  | other (msg : String)
  | multi (msgs : List String)
  deriving DecidableEq, Repr

/-- The test `rueidis.IsRedisNil(err)`. -/
def IsRedisNil : Err → Bool
  | .redisNil => true
  | _ => false

/-- The messages an error carries: a composite error carries those of its
parts. -/
def Err.messages : Err → List String
  | .redisNil => ["redis nil message"]
  | .other msg => [msg]
  | .multi msgs => msgs

/-- `multierr.Combine(errs...)`: nil entries are dropped; no error left gives
nil, one error left is returned as it is, several are merged into one composite
error. -/
def Combine (errs : List (Option Err)) : Option Err :=
  match errs.filterMap id with
  | [] => none
  | [e] => some e
  | es => some (Err.multi (es.flatMap Err.messages))

/-! ## Store commands and the store client -/

/-- The commands the registry sends to the store. -/
inductive Cmd where
  | set (key value : String) (exSeconds : Int)
  | del (key : String)
  | get (key : String)
  | expire (key : String) (seconds : Int)
  | scan (cursor : Nat) (pattern : String)
  deriving DecidableEq, Repr

/-- `SET`, `DEL` and `EXPIRE` change the store; `GET` and `SCAN` do not. -/
def Cmd.mutating : Cmd → Bool
  | .set _ _ _ => true
  | .del _ => true
  | .expire _ _ => true
  | .get _ => false
  | .scan _ _ => false

/-- The key a command targets (`SCAN` targets none). -/
def Cmd.key : Cmd → Option String
  | .set k _ _ => some k
  | .del k => some k
  | .expire k _ => some k
  | .get k => some k
  | .scan _ _ => none

/-- The value `rueidis.ScanEntry`: one page of a `SCAN`. -/
structure ScanEntry where
  Elements : List String
  Cursor : Nat
  deriving DecidableEq, Repr

/-- The store client.  Each field is the outcome of `client.Do(ctx, cmd)` read
through the accessor the registry uses (`.Error()`, `.ToString()`,
`.AsScanEntry()`), given the history of commands the store received before. -/
structure Client where
  set : List Cmd → String → String → Int → Option Err
  del : List Cmd → String → Option Err
  get : List Cmd → String → Except Err String
  expire : List Cmd → String → Int → Option Err
  scan : List Cmd → Nat → String → Except Err ScanEntry

/-- The declarations of package `store` that `redis.go` uses and that live in
another file: the key derivation `getKey(ip, layer)` and the value
`int64(KeyExpiration.Seconds())` of the expiration window. -/
structure Pkg where
  getKey : String → String → String
  expirationSeconds : Int

/-- The struct `RedisStore`.  `peer` stands for the `Peers` collaborator by the
answer of its `GetPeers(ctx)`. -/
structure RedisStore where
  podIP : String
  peer : Except Err (List String)
  client : Client

/-! ## The operations -/

/-- The method `RedisStore.Add`: one `SET key podIP EX seconds` per layer, in
order, returning at the first error. -/
def RedisStore.Add (P : Pkg) (r : RedisStore) : List String → List Cmd → Option Err × List Cmd
  | [], h => (none, h)
  | layer :: rest, h =>
    let key := P.getKey r.podIP layer
    let err := r.client.set h key r.podIP P.expirationSeconds
    let h1 := h ++ [Cmd.set key r.podIP P.expirationSeconds]
    match err with
    | some e => (some e, h1)
    | none => RedisStore.Add P r rest h1

/-- The loop of `RedisStore.Remove`, with the slice `errs` as accumulator.  On
an error the source executes `errs = append(errs)`, which appends no element. -/
def RedisStore.removeLoop (P : Pkg) (r : RedisStore) :
    List String → List (Option Err) → List Cmd → List (Option Err) × List Cmd
  | [], errs, h => (errs, h)
  | layer :: rest, errs, h =>
    let key := P.getKey r.podIP layer
    let err := r.client.del h key
    let h1 := h ++ [Cmd.del key]
    match err with
    | some _ => RedisStore.removeLoop P r rest (errs ++ []) h1
    | none => RedisStore.removeLoop P r rest errs h1

/-- The method `RedisStore.Remove`. -/
def RedisStore.Remove (P : Pkg) (r : RedisStore) (layers : List String) (h : List Cmd) :
    Option Err × List Cmd :=
  let out := RedisStore.removeLoop P r layers [] h
  (Combine out.1, out.2)

/-- The result of `Get` and `Dump`: a slice (`none` is the nil slice) and an
error (`none` is the nil error). -/
abbrev Listing := Option (List String) × Option Err

/-- The loop of `RedisStore.Get` over the peers, with the slice `ips` as
accumulator. -/
def RedisStore.getLoop (P : Pkg) (r : RedisStore) (layer : String) :
    List String → List String → List Cmd → Listing × List Cmd
  | [], ips, h => ((some ips, none), h)
  | peer :: rest, ips, h =>
    if peer = r.podIP then RedisStore.getLoop P r layer rest ips h
    else
      let key := P.getKey peer layer
      let h1 := h ++ [Cmd.get key]
      match r.client.get h key with
      | .error err =>
        if IsRedisNil err then RedisStore.getLoop P r layer rest ips h1
        else ((none, some err), h1)
      | .ok ip => RedisStore.getLoop P r layer rest (ips ++ [ip]) h1

/-- The method `RedisStore.Get`. -/
def RedisStore.Get (P : Pkg) (r : RedisStore) (layer : String) (h : List Cmd) :
    Listing × List Cmd :=
  match r.peer with
  | .error err => ((none, some err), h)
  | .ok peers => RedisStore.getLoop P r layer peers [] h

/-- The method `RedisStore.ResetExpiration`: one `EXPIRE key seconds` per
layer, in order, returning at the first error. -/
def RedisStore.ResetExpiration (P : Pkg) (r : RedisStore) :
    List String → List Cmd → Option Err × List Cmd
  | [], h => (none, h)
  | layer :: rest, h =>
    let key := P.getKey r.podIP layer
    let err := r.client.expire h key P.expirationSeconds
    let h1 := h ++ [Cmd.expire key P.expirationSeconds]
    match err with
    | some e => (some e, h1)
    | none => RedisStore.ResetExpiration P r rest h1

/-- The loop of `RedisStore.Dump`: `scan` is the loop variable of the same
name, `data` the slice collected so far.  The loop runs as long as the store
returns a non-zero cursor, so the embedding counts iterations: the first
component is `none` when the count is used up with the loop still running. -/
def RedisStore.dumpLoop (r : RedisStore) :
    Nat → ScanEntry → List String → List Cmd → Option Listing × List Cmd
  | 0, _, _, h => (none, h)
  | fuel + 1, scan, data, h =>
    let h1 := h ++ [Cmd.scan scan.Cursor "layer:*"]
    match r.client.scan h scan.Cursor "layer:*" with
    | .error err => (some (none, some err), h1)
    | .ok scan1 =>
      let data1 := data ++ scan1.Elements
      if scan1.Cursor ≠ 0 then RedisStore.dumpLoop r fuel scan1 data1 h1
      else (some (some data1, none), h1)

/-- The method `RedisStore.Dump`, started with the zero `ScanEntry` and the
empty slice. -/
def RedisStore.Dump (r : RedisStore) (fuel : Nat) (h : List Cmd) : Option Listing × List Cmd :=
  RedisStore.dumpLoop r fuel ⟨[], 0⟩ [] h

/-! ## Commands an operation is expected to issue -/

/-- The `SET` commands of `Add` for a list of layers, in order. -/
def setCmds (P : Pkg) (r : RedisStore) (layers : List String) : List Cmd :=
  layers.map (fun l => Cmd.set (P.getKey r.podIP l) r.podIP P.expirationSeconds)

/-- The `DEL` commands of `Remove` for a list of layers, in order. -/
def delCmds (P : Pkg) (r : RedisStore) (layers : List String) : List Cmd :=
  layers.map (fun l => Cmd.del (P.getKey r.podIP l))

/-- The `EXPIRE` commands of `ResetExpiration` for a list of layers, in order. -/
def expireCmds (P : Pkg) (r : RedisStore) (layers : List String) : List Cmd :=
  layers.map (fun l => Cmd.expire (P.getKey r.podIP l) P.expirationSeconds)

/-- The `GET` commands of `Get` for a list of peers, in order: one per peer
other than the caller. -/
def getCmds (P : Pkg) (r : RedisStore) (layer : String) (peers : List String) : List Cmd :=
  (peers.filter (fun p => decide (p ≠ r.podIP))).map (fun p => Cmd.get (P.getKey p layer))

/-- The `SCAN` commands that fetch a sequence of pages starting at cursor
`cur`: each continues from the cursor of the page before. -/
def scanCmds : Nat → List ScanEntry → List Cmd
  | _, [] => []
  | cur, pg :: rest => Cmd.scan cur "layer:*" :: scanCmds pg.Cursor rest

/-- The cursor reached after a sequence of pages fetched from cursor `cur`. -/
def cursorAfter : Nat → List ScanEntry → Nat
  | cur, [] => cur
  | _, pg :: rest => cursorAfter pg.Cursor rest

/-- The store answers a `SCAN` chain started at cursor `cur` after history `h`
with exactly the pages `pages`: every page but the last carries a non-zero
cursor, the last carries cursor zero. -/
inductive ScanPages (c : Client) : List Cmd → Nat → List ScanEntry → Prop where
  | last (h : List Cmd) (cur : Nat) (pg : ScanEntry) :
      c.scan h cur "layer:*" = .ok pg → pg.Cursor = 0 → ScanPages c h cur [pg]
  | next (h : List Cmd) (cur : Nat) (pg : ScanEntry) (rest : List ScanEntry) :
      c.scan h cur "layer:*" = .ok pg → pg.Cursor ≠ 0 →
      ScanPages c (h ++ [Cmd.scan cur "layer:*"]) pg.Cursor rest →
      ScanPages c h cur (pg :: rest)

/-- The store answers a `SCAN` chain started at cursor `cur` after history `h`
with the pages `pages`, all with a non-zero cursor, and then fails the next
`SCAN` with error `e`. -/
inductive ScanFails (c : Client) : List Cmd → Nat → List ScanEntry → Err → Prop where
  | fail (h : List Cmd) (cur : Nat) (e : Err) :
      c.scan h cur "layer:*" = .error e → ScanFails c h cur [] e
  | next (h : List Cmd) (cur : Nat) (pg : ScanEntry) (rest : List ScanEntry) (e : Err) :
      c.scan h cur "layer:*" = .ok pg → pg.Cursor ≠ 0 →
      ScanFails c (h ++ [Cmd.scan cur "layer:*"]) pg.Cursor rest e →
      ScanFails c h cur (pg :: rest) e

/-! ## A key-value store whose calls do not fail -/

/-- The contents of a key-value map without the entry of key `k`. -/
def kvErase (s : List (String × String)) (k : String) : List (String × String) :=
  s.filter (fun kv => decide (kv.1 ≠ k))

/-- The effect of one command on the contents of a key-value map (an
association list with at most one entry per key).  Expiry is not modelled: no
time passes between the calls of a scenario. -/
def kvApply (s : List (String × String)) : Cmd → List (String × String)
  | .set k v _ => (k, v) :: kvErase s k
  | .del k => kvErase s k
  | _ => s

/-- The contents of the key-value store after a history of commands, starting
from the empty store. -/
def kvState (h : List Cmd) : List (String × String) :=
  h.foldl kvApply []

/-- The glob match of `SCAN ... MATCH pattern`, for the patterns with at most
one trailing star. -/
def globMatch (pattern key : String) : Bool :=
  if pattern.endsWith "*" then key.startsWith (pattern.dropRight 1) else pattern == key

/-- The store client of a key-value map whose calls do not fail: `GET` of an
absent key answers `rueidis.Nil`, `DEL` of an absent key is no error, `SCAN`
answers all matching keys in one page. -/
def kvClient : Client where
  set := fun _ _ _ _ => none
  del := fun _ _ => none
  get := fun h k =>
    match (kvState h).lookup k with
    | some v => .ok v
    | none => .error Err.redisNil
  expire := fun _ _ _ => none
  scan := fun h _ pattern =>
    .ok ⟨((kvState h).map Prod.fst).filter (globMatch pattern), 0⟩

/-- The contents of a key-value store that no `DEL` reaches: as `kvState`,
with `DEL` commands leaving the contents as they are. -/
def kvStateNoDel (h : List Cmd) : List (String × String) :=
  kvState (h.filter (fun c => match c with | .del _ => false | _ => true))

/-- A key-value store whose `DEL` calls fail (the request never reaches the
store, as under a cancelled context or a dropped connection) while every other
call behaves as in `kvClient`. -/
def delFailingClient : Client where
  set := fun _ _ _ _ => none
  del := fun _ _ => some (Err.other "context canceled")
  get := fun h k =>
    match (kvStateNoDel h).lookup k with
    | some v => .ok v
    | none => .error Err.redisNil
  expire := fun _ _ _ => none
  scan := fun h _ pattern =>
    .ok ⟨((kvStateNoDel h).map Prod.fst).filter (globMatch pattern), 0⟩

/-- Modelled from the spec: `getKey` and `KeyExpiration` are declared outside
`redis.go`.  The key is derived from the owner and the layer and carries the
fixed namespace token that `Dump` scans for; the expiration window is taken to
be ten minutes.  Only the concrete scenarios below use these values. -/
def samplePkg : Pkg where
  getKey := fun ip layer => "layer:" ++ ip ++ ":" ++ layer
  expirationSeconds := 600

/-- The addresses `Get` collects over the key-value store: the values found
under the keys of the peers other than the caller `self`. -/
def kvFound (P : Pkg) (self layer : String) (s : List (String × String))
    (peers : List String) : List String :=
  (peers.filter (fun p => decide (p ≠ self))).filterMap (fun p => s.lookup (P.getKey p layer))

/-- A key-value store that becomes unreachable once it has received `n`
commands: until then it behaves as `kvClient`, from then on every call fails
with a connection error. -/
def outageClient (n : Nat) : Client where
  set := fun h _ _ _ => if h.length < n then none else some (Err.other "connection refused")
  del := fun h _ => if h.length < n then none else some (Err.other "connection refused")
  get := fun h k =>
    if h.length < n then kvClient.get h k else .error (Err.other "connection refused")
  expire := fun h _ _ => if h.length < n then none else some (Err.other "connection refused")
  scan := fun h cur pattern =>
    if h.length < n then kvClient.scan h cur pattern
    else .error (Err.other "connection refused")

/-- A store whose `SCAN` serves a fixed sequence of pages, the cursor being
the index of the page asked for; a cursor past the last page is refused.  The
other calls behave as in `kvClient`. -/
def pagedClient (pages : List ScanEntry) : Client where
  set := kvClient.set
  del := kvClient.del
  get := kvClient.get
  expire := kvClient.expire
  scan := fun _ cur _ =>
    match pages.get? cur with
    | some pg => .ok pg
    | none => .error (Err.other "invalid cursor")

/-! ## The commands each loop issues -/

theorem setCmds_cons (P : Pkg) (r : RedisStore) (l : String) (ls : List String) :
    setCmds P r (l :: ls)
      = Cmd.set (P.getKey r.podIP l) r.podIP P.expirationSeconds :: setCmds P r ls := rfl

theorem delCmds_cons (P : Pkg) (r : RedisStore) (l : String) (ls : List String) :
    delCmds P r (l :: ls) = Cmd.del (P.getKey r.podIP l) :: delCmds P r ls := rfl

theorem getCmds_cons_self (P : Pkg) (r : RedisStore) (layer : String) (ps : List String) :
    getCmds P r layer (r.podIP :: ps) = getCmds P r layer ps := by
  simp [getCmds]

theorem getCmds_cons_other (P : Pkg) (r : RedisStore) (layer p : String) (ps : List String)
    (hp : p ≠ r.podIP) :
    getCmds P r layer (p :: ps) = Cmd.get (P.getKey p layer) :: getCmds P r layer ps := by
  simp [getCmds, hp]

theorem getCmds_append (P : Pkg) (r : RedisStore) (layer : String) (ps qs : List String) :
    getCmds P r layer (ps ++ qs) = getCmds P r layer ps ++ getCmds P r layer qs := by
  simp [getCmds]

/-- When no `SET` fails, `Add` issues them all and returns nil. -/
theorem Add_all_succeed (P : Pkg) (r : RedisStore) (layers : List String) :
    ∀ h : List Cmd,
      (∀ a q b, layers = a ++ q :: b →
        r.client.set (h ++ setCmds P r a) (P.getKey r.podIP q) r.podIP P.expirationSeconds
          = none) →
      r.Add P layers h = (none, h ++ setCmds P r layers) := by
  induction layers with
  | nil => intro h _; simp [RedisStore.Add, setCmds]
  | cons x xs ih =>
    intro h hok
    have h0 := hok [] x xs rfl
    simp only [setCmds, List.map_nil, List.append_nil] at h0
    have hrest := ih (h ++ [Cmd.set (P.getKey r.podIP x) r.podIP P.expirationSeconds])
      (by
        intro a q b hsplit
        have := hok (x :: a) q b (by simp [hsplit])
        simpa [setCmds_cons, List.append_assoc] using this)
    simp only [RedisStore.Add, h0, hrest, setCmds_cons, List.append_assoc, List.singleton_append]

/-- When the `SET` of `l` is the first to fail, `Add` returns its error right
after issuing it. -/
theorem Add_first_failure (P : Pkg) (r : RedisStore) (pre : List String) (l : String)
    (post : List String) (e : Err) :
    ∀ h : List Cmd,
      (∀ a q b, pre = a ++ q :: b →
        r.client.set (h ++ setCmds P r a) (P.getKey r.podIP q) r.podIP P.expirationSeconds
          = none) →
      r.client.set (h ++ setCmds P r pre) (P.getKey r.podIP l) r.podIP P.expirationSeconds
        = some e →
      r.Add P (pre ++ l :: post) h = (some e, h ++ setCmds P r (pre ++ [l])) := by
  induction pre with
  | nil =>
    intro h _ hfail
    simp only [setCmds, List.map_nil, List.append_nil] at hfail
    simp [RedisStore.Add, hfail, setCmds]
  | cons x xs ih =>
    intro h hok hfail
    have h0 := hok [] x xs rfl
    simp only [setCmds, List.map_nil, List.append_nil] at h0
    have hrest := ih (h ++ [Cmd.set (P.getKey r.podIP x) r.podIP P.expirationSeconds])
      (by
        intro a q b hsplit
        have := hok (x :: a) q b (by simp [hsplit])
        simpa [setCmds_cons, List.append_assoc] using this)
      (by simpa [setCmds_cons, List.append_assoc] using hfail)
    have hgoal : r.Add P (x :: (xs ++ l :: post)) h
        = (some e, h ++ setCmds P r (x :: (xs ++ [l]))) := by
      simp only [RedisStore.Add, h0, hrest, setCmds_cons, List.append_assoc,
        List.singleton_append]
    simpa using hgoal

/-- The loop of `Remove` leaves `errs` as it was and issues one `DEL` per
layer, whatever the store answers. -/
theorem removeLoop_eq (P : Pkg) (r : RedisStore) (layers : List String) :
    ∀ (errs : List (Option Err)) (h : List Cmd),
      RedisStore.removeLoop P r layers errs h = (errs, h ++ delCmds P r layers) := by
  induction layers with
  | nil => intro errs h; simp [RedisStore.removeLoop, delCmds]
  | cons x xs ih =>
    intro errs h
    cases hdel : r.client.del h (P.getKey r.podIP x) with
    | none => simp [RedisStore.removeLoop, hdel, ih, delCmds_cons]
    | some e => simp [RedisStore.removeLoop, hdel, ih, delCmds_cons]

/-- The error `Remove` returns is nil, whatever the store answered. -/
theorem Remove_eq (P : Pkg) (r : RedisStore) (layers : List String) (h : List Cmd) :
    r.Remove P layers h = (none, h ++ delCmds P r layers) := by
  simp [RedisStore.Remove, removeLoop_eq, Combine]

/-- While no read fails with an error other than `rueidis.Nil`, the loop of
`Get` over `pre ++ rest` reaches `rest` with every read of `pre` issued. -/
theorem getLoop_through_reads (P : Pkg) (r : RedisStore) (layer : String) (pre rest : List String) :
    ∀ (ips : List String) (h : List Cmd),
      (∀ a q b e1, pre = a ++ q :: b → q ≠ r.podIP →
        r.client.get (h ++ getCmds P r layer a) (P.getKey q layer) = .error e1 →
        IsRedisNil e1 = true) →
      ∃ ips1, RedisStore.getLoop P r layer (pre ++ rest) ips h
        = RedisStore.getLoop P r layer rest ips1 (h ++ getCmds P r layer pre) := by
  induction pre with
  | nil => intro ips h _; exact ⟨ips, by simp [getCmds]⟩
  | cons x xs ih =>
    intro ips h hok
    by_cases hx : x = r.podIP
    · subst hx
      obtain ⟨ips1, h1⟩ := ih ips h (by
        intro a q b e1 hsplit hq hget
        have := hok (r.podIP :: a) q b e1 (by simp [hsplit]) hq
        rw [getCmds_cons_self] at this
        exact this hget)
      refine ⟨ips1, ?_⟩
      have hstep : RedisStore.getLoop P r layer (r.podIP :: (xs ++ rest)) ips h
          = RedisStore.getLoop P r layer (xs ++ rest) ips h := by
        simp [RedisStore.getLoop]
      rw [List.cons_append, hstep, h1, getCmds_cons_self]
    · have hnext : ∀ a q b e1, xs = a ++ q :: b → q ≠ r.podIP →
          r.client.get (h ++ [Cmd.get (P.getKey x layer)] ++ getCmds P r layer a)
            (P.getKey q layer) = .error e1 → IsRedisNil e1 = true := by
        intro a q b e1 hsplit hq hget
        have := hok (x :: a) q b e1 (by simp [hsplit]) hq
        rw [getCmds_cons_other P r layer x a hx] at this
        exact this (by simpa [List.append_assoc] using hget)
      have h0 := hok [] x xs
      simp only [getCmds, List.filter_nil, List.map_nil, List.append_nil] at h0
      cases hget : r.client.get h (P.getKey x layer) with
      | error e1 =>
        have hnil := h0 e1 rfl hx hget
        obtain ⟨ips1, h1⟩ := ih ips (h ++ [Cmd.get (P.getKey x layer)]) hnext
        refine ⟨ips1, ?_⟩
        have hstep : RedisStore.getLoop P r layer (x :: (xs ++ rest)) ips h
            = RedisStore.getLoop P r layer (xs ++ rest) ips
                (h ++ [Cmd.get (P.getKey x layer)]) := by
          simp [RedisStore.getLoop, hx, hget, hnil]
        rw [List.cons_append, hstep, h1, getCmds_cons_other P r layer x xs hx]
        simp [List.append_assoc]
      | ok ip =>
        obtain ⟨ips1, h1⟩ := ih (ips ++ [ip]) (h ++ [Cmd.get (P.getKey x layer)]) hnext
        refine ⟨ips1, ?_⟩
        have hstep : RedisStore.getLoop P r layer (x :: (xs ++ rest)) ips h
            = RedisStore.getLoop P r layer (xs ++ rest) (ips ++ [ip])
                (h ++ [Cmd.get (P.getKey x layer)]) := by
          simp [RedisStore.getLoop, hx, hget]
        rw [List.cons_append, hstep, h1, getCmds_cons_other P r layer x xs hx]
        simp [List.append_assoc]

/-- When every read answers `rueidis.Nil`, the loop of `Get` returns the slice
it started with. -/
theorem getLoop_all_absent (P : Pkg) (r : RedisStore) (layer : String) (peers : List String) :
    ∀ (ips : List String) (h : List Cmd),
      (∀ a q b, peers = a ++ q :: b → q ≠ r.podIP →
        r.client.get (h ++ getCmds P r layer a) (P.getKey q layer) = .error Err.redisNil) →
      RedisStore.getLoop P r layer peers ips h
        = ((some ips, none), h ++ getCmds P r layer peers) := by
  induction peers with
  | nil => intro ips h _; simp [RedisStore.getLoop, getCmds]
  | cons x xs ih =>
    intro ips h hnf
    by_cases hx : x = r.podIP
    · subst hx
      have h1 := ih ips h (by
        intro a q b hsplit hq
        have := hnf (r.podIP :: a) q b (by simp [hsplit]) hq
        rwa [getCmds_cons_self] at this)
      simp [RedisStore.getLoop, h1, getCmds_cons_self]
    · have h0 := hnf [] x xs rfl hx
      simp only [getCmds, List.filter_nil, List.map_nil, List.append_nil] at h0
      have h1 := ih ips (h ++ [Cmd.get (P.getKey x layer)]) (by
        intro a q b hsplit hq
        have := hnf (x :: a) q b (by simp [hsplit]) hq
        rw [getCmds_cons_other P r layer x a hx] at this
        simpa [List.append_assoc] using this)
      simp [RedisStore.getLoop, hx, h0, IsRedisNil, h1, getCmds_cons_other P r layer x xs hx]

/-- The slice the loop of `Get` returns holds no element equal to the caller
when the slice it started with holds none and every record read holds the
address of the peer it is keyed by. -/
theorem getLoop_excludes_self (P : Pkg) (r : RedisStore) (layer : String) (peers : List String) :
    ∀ (ips : List String) (h : List Cmd) (out : List String),
      r.podIP ∉ ips →
      (∀ g p v, (∀ c ∈ g, Cmd.mutating c = false) → p ∈ peers → p ≠ r.podIP →
        r.client.get (h ++ g) (P.getKey p layer) = .ok v → v = p) →
      (RedisStore.getLoop P r layer peers ips h).1 = (some out, none) →
      r.podIP ∉ out := by
  induction peers with
  | nil =>
    intro ips h out hips _ hres
    simp [RedisStore.getLoop] at hres
    rw [← hres]; exact hips
  | cons x xs ih =>
    intro ips h out hips hinv hres
    by_cases hx : x = r.podIP
    · subst hx
      simp only [RedisStore.getLoop, if_true] at hres
      exact ih ips h out hips
        (fun g p v hg hp hne hget => hinv g p v hg (List.mem_cons_of_mem _ hp) hne hget) hres
    · have hinv1 : ∀ g p v, (∀ c ∈ g, Cmd.mutating c = false) → p ∈ xs → p ≠ r.podIP →
          r.client.get (h ++ [Cmd.get (P.getKey x layer)] ++ g) (P.getKey p layer) = .ok v →
          v = p := by
        intro g p v hg hp hne hget
        refine hinv (Cmd.get (P.getKey x layer) :: g) p v ?_ (List.mem_cons_of_mem _ hp) hne
          (by simpa [List.append_assoc] using hget)
        intro c hc
        rcases List.mem_cons.mp hc with rfl | hc
        · rfl
        · exact hg c hc
      cases hget : r.client.get h (P.getKey x layer) with
      | error e1 =>
        by_cases hnil : IsRedisNil e1 = true
        · simp only [RedisStore.getLoop, hx, if_false, hget, hnil, if_true] at hres
          exact ih ips _ out hips hinv1 hres
        · simp [RedisStore.getLoop, hx, hget, hnil] at hres
      | ok ip =>
        simp only [RedisStore.getLoop, hx, if_false, hget] at hres
        have hip : ip = x := hinv [] x ip (by simp) (List.mem_cons_self _ _) hx (by simpa using hget)
        refine ih (ips ++ [ip]) _ out ?_ hinv1 hres
        intro hmem
        rcases List.mem_append.mp hmem with hm | hm
        · exact hips hm
        · rw [List.mem_singleton] at hm
          exact hx (by rw [← hip, ← hm])

/-! ## The commands issued by an operation, whatever the store answers -/

/-- The commands `Add` issues are `SET`s of the caller's own keys for layers
of its input. -/
theorem Add_log (P : Pkg) (r : RedisStore) (layers : List String) :
    ∀ h : List Cmd, ∃ cmds, (r.Add P layers h).2 = h ++ cmds ∧
      ∀ c ∈ cmds, ∃ l ∈ layers,
        c = Cmd.set (P.getKey r.podIP l) r.podIP P.expirationSeconds := by
  induction layers with
  | nil => intro h; exact ⟨[], by simp [RedisStore.Add]⟩
  | cons x xs ih =>
    intro h
    cases hset : r.client.set h (P.getKey r.podIP x) r.podIP P.expirationSeconds with
    | some e =>
      refine ⟨[Cmd.set (P.getKey r.podIP x) r.podIP P.expirationSeconds], ?_, ?_⟩
      · simp [RedisStore.Add, hset]
      · intro c hc
        exact ⟨x, List.mem_cons_self _ _, List.mem_singleton.mp hc⟩
    | none =>
      obtain ⟨cmds, hlog, hall⟩ :=
        ih (h ++ [Cmd.set (P.getKey r.podIP x) r.podIP P.expirationSeconds])
      refine ⟨Cmd.set (P.getKey r.podIP x) r.podIP P.expirationSeconds :: cmds, ?_, ?_⟩
      · simp [RedisStore.Add, hset, hlog]
      · intro c hc
        rcases List.mem_cons.mp hc with rfl | hc
        · exact ⟨x, List.mem_cons_self _ _, rfl⟩
        · obtain ⟨l, hl, hcl⟩ := hall c hc
          exact ⟨l, List.mem_cons_of_mem _ hl, hcl⟩

/-- The commands `ResetExpiration` issues are `EXPIRE`s of the caller's own
keys for layers of its input. -/
theorem ResetExpiration_log (P : Pkg) (r : RedisStore) (layers : List String) :
    ∀ h : List Cmd, ∃ cmds, (r.ResetExpiration P layers h).2 = h ++ cmds ∧
      ∀ c ∈ cmds, ∃ l ∈ layers, c = Cmd.expire (P.getKey r.podIP l) P.expirationSeconds := by
  induction layers with
  | nil => intro h; exact ⟨[], by simp [RedisStore.ResetExpiration]⟩
  | cons x xs ih =>
    intro h
    cases hexp : r.client.expire h (P.getKey r.podIP x) P.expirationSeconds with
    | some e =>
      refine ⟨[Cmd.expire (P.getKey r.podIP x) P.expirationSeconds], ?_, ?_⟩
      · simp [RedisStore.ResetExpiration, hexp]
      · intro c hc
        exact ⟨x, List.mem_cons_self _ _, List.mem_singleton.mp hc⟩
    | none =>
      obtain ⟨cmds, hlog, hall⟩ :=
        ih (h ++ [Cmd.expire (P.getKey r.podIP x) P.expirationSeconds])
      refine ⟨Cmd.expire (P.getKey r.podIP x) P.expirationSeconds :: cmds, ?_, ?_⟩
      · simp [RedisStore.ResetExpiration, hexp, hlog]
      · intro c hc
        rcases List.mem_cons.mp hc with rfl | hc
        · exact ⟨x, List.mem_cons_self _ _, rfl⟩
        · obtain ⟨l, hl, hcl⟩ := hall c hc
          exact ⟨l, List.mem_cons_of_mem _ hl, hcl⟩

/-- The commands the loop of `Get` issues are `GET`s of keys of peers other
than the caller. -/
theorem getLoop_log (P : Pkg) (r : RedisStore) (layer : String) (peers : List String) :
    ∀ (ips : List String) (h : List Cmd),
      ∃ cmds, (RedisStore.getLoop P r layer peers ips h).2 = h ++ cmds ∧
        ∀ c ∈ cmds, ∃ p ∈ peers, p ≠ r.podIP ∧ c = Cmd.get (P.getKey p layer) := by
  induction peers with
  | nil => intro ips h; exact ⟨[], by simp [RedisStore.getLoop]⟩
  | cons x xs ih =>
    intro ips h
    by_cases hx : x = r.podIP
    · obtain ⟨cmds, hlog, hall⟩ := ih ips h
      refine ⟨cmds, by simp [RedisStore.getLoop, hx, hlog], ?_⟩
      intro c hc
      obtain ⟨p, hp, hne, hcp⟩ := hall c hc
      exact ⟨p, List.mem_cons_of_mem _ hp, hne, hcp⟩
    · have hcons : ∀ cmds : List Cmd,
          (∀ c ∈ cmds, ∃ p ∈ xs, p ≠ r.podIP ∧ c = Cmd.get (P.getKey p layer)) →
          ∀ c ∈ Cmd.get (P.getKey x layer) :: cmds,
            ∃ p ∈ x :: xs, p ≠ r.podIP ∧ c = Cmd.get (P.getKey p layer) := by
        intro cmds hall c hc
        rcases List.mem_cons.mp hc with rfl | hc
        · exact ⟨x, List.mem_cons_self _ _, hx, rfl⟩
        · obtain ⟨p, hp, hne, hcp⟩ := hall c hc
          exact ⟨p, List.mem_cons_of_mem _ hp, hne, hcp⟩
      cases hget : r.client.get h (P.getKey x layer) with
      | error e1 =>
        by_cases hnil : IsRedisNil e1 = true
        · obtain ⟨cmds, hlog, hall⟩ := ih ips (h ++ [Cmd.get (P.getKey x layer)])
          exact ⟨Cmd.get (P.getKey x layer) :: cmds,
            by simp [RedisStore.getLoop, hx, hget, hnil, hlog], hcons cmds hall⟩
        · exact ⟨Cmd.get (P.getKey x layer) :: [],
            by simp [RedisStore.getLoop, hx, hget, hnil], hcons [] (by simp)⟩
      | ok ip =>
        obtain ⟨cmds, hlog, hall⟩ := ih (ips ++ [ip]) (h ++ [Cmd.get (P.getKey x layer)])
        exact ⟨Cmd.get (P.getKey x layer) :: cmds,
          by simp [RedisStore.getLoop, hx, hget, hlog], hcons cmds hall⟩

/-- The commands the loop of `Dump` issues are `SCAN`s with the pattern
`layer:*`, however long it runs. -/
theorem dumpLoop_log (r : RedisStore) (fuel : Nat) :
    ∀ (scan : ScanEntry) (data : List String) (h : List Cmd),
      ∃ cmds, (RedisStore.dumpLoop r fuel scan data h).2 = h ++ cmds ∧
        ∀ c ∈ cmds, ∃ cur, c = Cmd.scan cur "layer:*" := by
  induction fuel with
  | zero => intro scan data h; exact ⟨[], by simp [RedisStore.dumpLoop]⟩
  | succ n ih =>
    intro scan data h
    cases hscan : r.client.scan h scan.Cursor "layer:*" with
    | error e =>
      exact ⟨[Cmd.scan scan.Cursor "layer:*"], by simp [RedisStore.dumpLoop, hscan],
        by intro c hc; exact ⟨scan.Cursor, List.mem_singleton.mp hc⟩⟩
    | ok pg =>
      by_cases hcur : pg.Cursor = 0
      · exact ⟨[Cmd.scan scan.Cursor "layer:*"], by simp [RedisStore.dumpLoop, hscan, hcur],
          by intro c hc; exact ⟨scan.Cursor, List.mem_singleton.mp hc⟩⟩
      · obtain ⟨cmds, hlog, hall⟩ :=
          ih pg (data ++ pg.Elements) (h ++ [Cmd.scan scan.Cursor "layer:*"])
        refine ⟨Cmd.scan scan.Cursor "layer:*" :: cmds,
          by simp [RedisStore.dumpLoop, hscan, hcur, hlog], ?_⟩
        intro c hc
        rcases List.mem_cons.mp hc with rfl | hc
        · exact ⟨scan.Cursor, rfl⟩
        · exact hall c hc

/-! ## Pagination of `Dump` -/

/-- Over a store that answers the `SCAN` chain with the pages `pages`, the
loop of `Dump` returns what it had collected followed by all their elements. -/
theorem dumpLoop_pages (r : RedisStore) (h : List Cmd) (cur : Nat) (pages : List ScanEntry)
    (hp : ScanPages r.client h cur pages) :
    ∀ (fuel : Nat) (scan : ScanEntry) (data : List String),
      pages.length ≤ fuel → scan.Cursor = cur →
      RedisStore.dumpLoop r fuel scan data h
        = (some (some (data ++ pages.flatMap ScanEntry.Elements), none),
           h ++ scanCmds cur pages) := by
  induction hp with
  | last h cur pg hscan hzero =>
    intro fuel scan data hfuel hcur
    obtain ⟨n, rfl⟩ : ∃ n, fuel = n + 1 := ⟨fuel - 1, by simp at hfuel; omega⟩
    subst hcur
    simp [RedisStore.dumpLoop, hscan, hzero, scanCmds]
  | next h cur pg rest hscan hne _ ih =>
    intro fuel scan data hfuel hcur
    obtain ⟨n, rfl⟩ : ∃ n, fuel = n + 1 := ⟨fuel - 1, by simp at hfuel; omega⟩
    subst hcur
    have hrest := ih n pg (data ++ pg.Elements) (by simp at hfuel; omega) rfl
    simp [RedisStore.dumpLoop, hscan, hne, hrest, scanCmds, List.append_assoc]

/-- Over a store that fails a `SCAN` after the pages `pages`, the loop of
`Dump` returns that error and the nil slice. -/
theorem dumpLoop_fails (r : RedisStore) (h : List Cmd) (cur : Nat) (pages : List ScanEntry)
    (e : Err) (hp : ScanFails r.client h cur pages e) :
    ∀ (fuel : Nat) (scan : ScanEntry) (data : List String),
      pages.length + 1 ≤ fuel → scan.Cursor = cur →
      RedisStore.dumpLoop r fuel scan data h
        = (some (none, some e),
           h ++ scanCmds cur pages ++ [Cmd.scan (cursorAfter cur pages) "layer:*"]) := by
  induction hp with
  | fail h cur e hscan =>
    intro fuel scan data hfuel hcur
    obtain ⟨n, rfl⟩ : ∃ n, fuel = n + 1 := ⟨fuel - 1, by simp at hfuel; omega⟩
    subst hcur
    simp [RedisStore.dumpLoop, hscan, scanCmds, cursorAfter]
  | next h cur pg rest e hscan hne _ ih =>
    intro fuel scan data hfuel hcur
    obtain ⟨n, rfl⟩ : ∃ n, fuel = n + 1 := ⟨fuel - 1, by simp at hfuel; omega⟩
    subst hcur
    have hrest := ih n pg (data ++ pg.Elements) (by simp at hfuel; omega) rfl
    simp [RedisStore.dumpLoop, hscan, hne, hrest, scanCmds, cursorAfter, List.append_assoc]

/-- The concatenation of the pages has as many entries as the pages carry in
total. -/
theorem length_flatMap_Elements (pages : List ScanEntry) :
    (pages.flatMap ScanEntry.Elements).length
      = (pages.map (fun pg => pg.Elements.length)).sum := by
  induction pages with
  | nil => rfl
  | cons pg rest ih => simp [List.flatMap_cons, ih]

theorem scanCmds_length (cur : Nat) (pages : List ScanEntry) :
    (scanCmds cur pages).length = pages.length := by
  induction pages generalizing cur with
  | nil => rfl
  | cons pg rest ih => simp [scanCmds, ih]

/-! ## The key-value store -/

theorem kvState_append (h g : List Cmd) : kvState (h ++ g) = g.foldl kvApply (kvState h) := by
  simp [kvState, List.foldl_append]

theorem kvApply_readOnly (s : List (String × String)) (c : Cmd) (hc : Cmd.mutating c = false) :
    kvApply s c = s := by
  cases c <;> simp_all [kvApply, Cmd.mutating]

theorem foldl_kvApply_readOnly (g : List Cmd) :
    ∀ s : List (String × String), (∀ c ∈ g, Cmd.mutating c = false) → g.foldl kvApply s = s := by
  induction g with
  | nil => intro s _; rfl
  | cons c cs ih =>
    intro s hg
    rw [List.foldl_cons, kvApply_readOnly s c (hg c (List.mem_cons_self _ _))]
    exact ih s (fun d hd => hg d (List.mem_cons_of_mem _ hd))

/-- Reads leave the contents of the key-value store as they are. -/
theorem kvState_append_readOnly (h g : List Cmd) (hg : ∀ c ∈ g, Cmd.mutating c = false) :
    kvState (h ++ g) = kvState h := by
  rw [kvState_append, foldl_kvApply_readOnly g _ hg]

theorem kvErase_cons_eq (s : List (String × String)) (k v : String) :
    kvErase ((k, v) :: s) k = kvErase s k := by
  simp [kvErase, List.filter_cons]

theorem kvErase_cons_ne (s : List (String × String)) (a k v : String) (ha : a ≠ k) :
    kvErase ((a, v) :: s) k = (a, v) :: kvErase s k := by
  simp [kvErase, List.filter_cons, ha]

theorem lookup_kvErase_ne (s : List (String × String)) (k k1 : String) (hne : k1 ≠ k) :
    (kvErase s k).lookup k1 = s.lookup k1 := by
  induction s with
  | nil => rfl
  | cons kv rest ih =>
    obtain ⟨a, b⟩ := kv
    by_cases ha : a = k
    · subst ha
      have hb : (k1 == a) = false := by simpa using hne
      rw [kvErase_cons_eq, ih, List.lookup_cons, hb]
    · rw [kvErase_cons_ne _ _ _ _ ha, List.lookup_cons, List.lookup_cons, ih]

theorem lookup_kvErase_self (s : List (String × String)) (k : String) :
    (kvErase s k).lookup k = none := by
  induction s with
  | nil => rfl
  | cons kv rest ih =>
    obtain ⟨a, b⟩ := kv
    by_cases ha : a = k
    · subst ha
      rw [kvErase_cons_eq, ih]
    · have hb : (k == a) = false := by simpa using (fun h : k = a => ha h.symm)
      rw [kvErase_cons_ne _ _ _ _ ha, List.lookup_cons, hb, ih]

theorem kvFound_cons_self (P : Pkg) (self layer : String) (s : List (String × String))
    (ps : List String) : kvFound P self layer s (self :: ps) = kvFound P self layer s ps := by
  simp [kvFound]

theorem kvFound_cons_none (P : Pkg) (self layer x : String) (s : List (String × String))
    (ps : List String) (hx : x ≠ self) (hl : s.lookup (P.getKey x layer) = none) :
    kvFound P self layer s (x :: ps) = kvFound P self layer s ps := by
  simp [kvFound, hx, List.filterMap_cons, hl]

theorem kvFound_cons_some (P : Pkg) (self layer x v : String) (s : List (String × String))
    (ps : List String) (hx : x ≠ self) (hl : s.lookup (P.getKey x layer) = some v) :
    kvFound P self layer s (x :: ps) = v :: kvFound P self layer s ps := by
  simp [kvFound, hx, List.filterMap_cons, hl]

theorem kvClient_get_none (h : List Cmd) (k : String) (hl : (kvState h).lookup k = none) :
    kvClient.get h k = .error Err.redisNil := by
  simp [kvClient, hl]

theorem kvClient_get_some (h : List Cmd) (k v : String) (hl : (kvState h).lookup k = some v) :
    kvClient.get h k = .ok v := by
  simp [kvClient, hl]

/-- Over the key-value store the loop of `Get` never fails: it appends the
values found under the keys of the peers other than the caller. -/
theorem kv_getLoop (P : Pkg) (self : String) (pr : Except Err (List String)) (layer : String)
    (peers : List String) :
    ∀ (ips : List String) (h : List Cmd),
      (RedisStore.getLoop P ⟨self, pr, kvClient⟩ layer peers ips h).1
        = (some (ips ++ kvFound P self layer (kvState h) peers), none) := by
  induction peers with
  | nil => intro ips h; simp [RedisStore.getLoop, kvFound]
  | cons x xs ih =>
    intro ips h
    by_cases hx : x = self
    · subst hx
      simp only [RedisStore.getLoop, if_true, ih, kvFound_cons_self]
    · have hst : kvState (h ++ [Cmd.get (P.getKey x layer)]) = kvState h :=
        kvState_append_readOnly h _ (by simp [Cmd.mutating])
      cases hl : (kvState h).lookup (P.getKey x layer) with
      | none =>
        simp only [RedisStore.getLoop, hx, if_false, kvClient_get_none h _ hl, IsRedisNil,
          if_true, ih, hst, kvFound_cons_none P self layer x _ xs hx hl]
      | some v =>
        simp only [RedisStore.getLoop, hx, if_false, kvClient_get_some h _ v hl, ih, hst,
          kvFound_cons_some P self layer x v _ xs hx hl, List.append_assoc,
          List.singleton_append]

/-- Once a key holds the address `A`, or once its layer is among those still
to be written, the key holds `A` after the `SET`s of `Add` by `A`. -/
theorem kv_lookup_after_sets (P : Pkg) (rA : RedisStore) (L : String) (layers : List String) :
    ∀ s : List (String × String),
      (L ∈ layers ∨ s.lookup (P.getKey rA.podIP L) = some rA.podIP) →
      ((setCmds P rA layers).foldl kvApply s).lookup (P.getKey rA.podIP L) = some rA.podIP := by
  induction layers with
  | nil =>
    intro s hs
    rcases hs with hs | hs
    · simp at hs
    · simpa [setCmds] using hs
  | cons x xs ih =>
    intro s hs
    rw [setCmds_cons, List.foldl_cons]
    apply ih
    by_cases hk : P.getKey rA.podIP L = P.getKey rA.podIP x
    · right
      simp [kvApply, hk, List.lookup_cons]
    · rcases hs with hs | hs
      · rcases List.mem_cons.mp hs with rfl | hs
        · exact absurd rfl hk
        · exact Or.inl hs
      · right
        have hb : (P.getKey rA.podIP L == P.getKey rA.podIP x) = false := by simpa using hk
        simp only [kvApply, List.lookup_cons, hb]
        rw [lookup_kvErase_ne _ _ _ hk]
        exact hs

theorem getCmds_readOnly (P : Pkg) (r : RedisStore) (layer : String) (peers : List String) :
    ∀ c ∈ getCmds P r layer peers, Cmd.mutating c = false := by
  intro c hc
  simp only [getCmds, List.mem_map] at hc
  obtain ⟨p, _, rfl⟩ := hc
  rfl

/-- Over the key-value store, once the `DEL` of `Remove([L])` by `A` has been
applied, `Get(L)` by a node `B` returns a list without `A`, provided every
record of layer `L` holds the address of the node it is keyed by. -/
theorem kv_Remove_then_Get_hides_remover (P : Pkg) (A B L : String) (peersB : List String)
    (prA : Except Err (List String)) (h : List Cmd)
    (hinv : ∀ p v, (kvState h).lookup (P.getKey p L) = some v → v = p) :
    ∃ ips, (RedisStore.Get P ⟨B, .ok peersB, kvClient⟩ L
        (RedisStore.Remove P ⟨A, prA, kvClient⟩ [L] h).2).1 = (some ips, none) ∧ A ∉ ips := by
  refine ⟨_, by simp only [RedisStore.Get]; exact kv_getLoop P B _ L peersB [] _, ?_⟩
  rw [Remove_eq]
  simp only [delCmds, List.map_cons, List.map_nil, List.nil_append]
  have hst : kvState (h ++ [Cmd.del (P.getKey A L)]) = kvErase (kvState h) (P.getKey A L) := by
    rw [kvState_append]; rfl
  rw [hst]
  intro hmem
  simp only [kvFound, List.mem_filterMap] at hmem
  obtain ⟨p, _, hl⟩ := hmem
  by_cases hk : P.getKey p L = P.getKey A L
  · rw [hk, lookup_kvErase_self] at hl
    exact Option.noConfusion hl
  · rw [lookup_kvErase_ne _ _ _ hk] at hl
    have := hinv p A hl
    exact hk (by rw [this])

/-! ## The claims -/

/-- C1, evaluated at a failing input: over a store whose `DEL` fails for both
layers of the list, `Remove` issues both `DEL`s and still returns the nil
error, because `errs = append(errs)` records neither failure. -/
theorem Remove_returns_nil_though_del_failed :
    delFailingClient.del [] (samplePkg.getKey "10.0.0.1" "sha256:aa")
        = some (Err.other "context canceled")
    ∧ delFailingClient.del [Cmd.del (samplePkg.getKey "10.0.0.1" "sha256:aa")]
        (samplePkg.getKey "10.0.0.1" "sha256:bb") = some (Err.other "context canceled")
    ∧ RedisStore.Remove samplePkg ⟨"10.0.0.1", .ok [], delFailingClient⟩
        ["sha256:aa", "sha256:bb"] []
        = (none, [Cmd.del "layer:10.0.0.1:sha256:aa", Cmd.del "layer:10.0.0.1:sha256:bb"]) := by
  decide

/-- C2: over the key-value store whose calls do not fail, after node `A` has
added a list of layers containing `L`, `Add` has returned nil and `Get(L)` on
another node `B` whose peer list contains `A` returns nil error and a list
containing `A`. -/
theorem Add_then_Get_roundtrip (P : Pkg) (A B L : String) (layers peersB : List String)
    (prA : Except Err (List String)) (h : List Cmd)
    (hL : L ∈ layers) (hAB : B ≠ A) (hA : A ∈ peersB) :
    (RedisStore.Add P ⟨A, prA, kvClient⟩ layers h).1 = none ∧
    ∃ ips, (RedisStore.Get P ⟨B, .ok peersB, kvClient⟩ L
        (RedisStore.Add P ⟨A, prA, kvClient⟩ layers h).2).1 = (some ips, none) ∧ A ∈ ips := by
  have hadd := Add_all_succeed P ⟨A, prA, kvClient⟩ layers h (fun _ _ _ _ => rfl)
  rw [hadd]
  refine ⟨rfl, _, by simp only [RedisStore.Get]; exact kv_getLoop P B _ L peersB [] _, ?_⟩
  simp only [List.nil_append, kvFound, List.mem_filterMap]
  refine ⟨A, List.mem_filter.mpr ⟨hA, by simpa using (fun hh : A = B => hAB hh.symm)⟩, ?_⟩
  rw [kvState_append]
  exact kv_lookup_after_sets P ⟨A, prA, kvClient⟩ L layers _ (Or.inl hL)

theorem Add_then_Get_roundtrip_witness :
    "sha256:bb" ∈ ["sha256:aa", "sha256:bb"] ∧ "10.0.0.2" ≠ "10.0.0.1" ∧
    "10.0.0.1" ∈ ["10.0.0.2", "10.0.0.1", "10.0.0.3"] ∧
    ((RedisStore.Add samplePkg ⟨"10.0.0.1", .ok [], kvClient⟩
        ["sha256:aa", "sha256:bb"] []).1 = none ∧
     ∃ ips, (RedisStore.Get samplePkg ⟨"10.0.0.2", .ok ["10.0.0.2", "10.0.0.1", "10.0.0.3"],
          kvClient⟩ "sha256:bb"
          (RedisStore.Add samplePkg ⟨"10.0.0.1", .ok [], kvClient⟩
            ["sha256:aa", "sha256:bb"] []).2).1 = (some ips, none) ∧ "10.0.0.1" ∈ ips) :=
  ⟨by decide, by decide, by decide,
   Add_then_Get_roundtrip samplePkg "10.0.0.1" "10.0.0.2" "sha256:bb"
     ["sha256:aa", "sha256:bb"] ["10.0.0.2", "10.0.0.1", "10.0.0.3"] (.ok []) []
     (by decide) (by decide) (by decide)⟩

/-- C3, evaluated at a failing input: node `10.0.0.1` adds a layer, then its
`Remove` of that layer meets a store whose `DEL` fails; `Remove` returns the
nil error all the same, the record stays, and the `Get` of node `10.0.0.2`
still returns `10.0.0.1`. -/
theorem Remove_nil_yet_Get_still_lists_remover :
    (RedisStore.Add samplePkg ⟨"10.0.0.1", .ok [], delFailingClient⟩ ["sha256:aa"] [])
        = (none, [Cmd.set "layer:10.0.0.1:sha256:aa" "10.0.0.1" 600])
    ∧ delFailingClient.del [Cmd.set "layer:10.0.0.1:sha256:aa" "10.0.0.1" 600]
        "layer:10.0.0.1:sha256:aa" = some (Err.other "context canceled")
    ∧ (RedisStore.Remove samplePkg ⟨"10.0.0.1", .ok [], delFailingClient⟩ ["sha256:aa"]
        [Cmd.set "layer:10.0.0.1:sha256:aa" "10.0.0.1" 600])
        = (none, [Cmd.set "layer:10.0.0.1:sha256:aa" "10.0.0.1" 600,
                  Cmd.del "layer:10.0.0.1:sha256:aa"])
    ∧ (RedisStore.Get samplePkg ⟨"10.0.0.2", .ok ["10.0.0.1"], delFailingClient⟩ "sha256:aa"
        [Cmd.set "layer:10.0.0.1:sha256:aa" "10.0.0.1" 600,
         Cmd.del "layer:10.0.0.1:sha256:aa"]).1 = (some ["10.0.0.1"], none) := by
  decide

/-- C4, counterexample: the store holds, under the key of peer `10.0.0.2`, a
record whose value is `10.0.0.1`; the `Get` of node `10.0.0.1` succeeds and
returns its own address. -/
theorem Get_returns_caller_from_foreign_record :
    (RedisStore.Get samplePkg ⟨"10.0.0.1", .ok ["10.0.0.2"], kvClient⟩ "sha256:aa"
        [Cmd.set (samplePkg.getKey "10.0.0.2" "sha256:aa") "10.0.0.1" 600]).1
      = (some ["10.0.0.1"], none)
    ∧ "10.0.0.1" ∈ ["10.0.0.1"] := by
  decide

/-- C4, amended: for every identity, peer list, layer and store in which each
record read under the key of a peer other than the caller holds that peer's
address, the list returned by a successful `Get` does not contain the caller. -/
theorem Get_excludes_caller (P : Pkg) (r : RedisStore) (layer : String) (peers : List String)
    (h : List Cmd) (ips : List String)
    (hpeers : r.peer = .ok peers)
    (hinv : ∀ g p v, (∀ c ∈ g, Cmd.mutating c = false) → p ∈ peers → p ≠ r.podIP →
      r.client.get (h ++ g) (P.getKey p layer) = .ok v → v = p)
    (hget : (r.Get P layer h).1 = (some ips, none)) :
    r.podIP ∉ ips := by
  simp only [RedisStore.Get, hpeers] at hget
  exact getLoop_excludes_self P r layer peers [] h ips (by simp) hinv hget

theorem Get_excludes_caller_witness :
    (RedisStore.Get samplePkg ⟨"10.0.0.1", .ok ["10.0.0.1", "10.0.0.2"], kvClient⟩ "sha256:aa"
        [Cmd.set (samplePkg.getKey "10.0.0.1" "sha256:aa") "10.0.0.1" 600,
         Cmd.set (samplePkg.getKey "10.0.0.2" "sha256:aa") "10.0.0.2" 600]).1
      = (some ["10.0.0.2"], none)
    ∧ "10.0.0.1" ∉ ["10.0.0.2"] :=
  And.intro (by decide) <|
  Get_excludes_caller samplePkg ⟨"10.0.0.1", .ok ["10.0.0.1", "10.0.0.2"], kvClient⟩ "sha256:aa"
    ["10.0.0.1", "10.0.0.2"]
    [Cmd.set (samplePkg.getKey "10.0.0.1" "sha256:aa") "10.0.0.1" 600,
     Cmd.set (samplePkg.getKey "10.0.0.2" "sha256:aa") "10.0.0.2" 600]
    ["10.0.0.2"] rfl
    (by
      intro g p v hg hp hne hget
      have hp2 : p = "10.0.0.2" := by
        simp only [List.mem_cons, List.mem_singleton, List.not_mem_nil, or_false] at hp
        rcases hp with hp | hp
        · exact absurd hp hne
        · exact hp
      subst hp2
      have hl : (kvState ([Cmd.set (samplePkg.getKey "10.0.0.1" "sha256:aa") "10.0.0.1" 600,
          Cmd.set (samplePkg.getKey "10.0.0.2" "sha256:aa") "10.0.0.2" 600] ++ g)).lookup
          (samplePkg.getKey "10.0.0.2" "sha256:aa") = some "10.0.0.2" := by
        rw [kvState_append_readOnly _ _ hg]; decide
      rw [kvClient_get_some _ _ _ hl] at hget
      exact (Except.ok.inj hget).symm)
    (by decide)

/-- C5: when the read of the key of a peer `p` other than the caller fails
with an error that is not `rueidis.Nil`, every read before it having succeeded
or answered `rueidis.Nil`, `Get` returns that error with the nil slice, and the
reads it issued are those of the peers up to `p`, none for a later peer. -/
theorem Get_store_error_aborts_call (P : Pkg) (r : RedisStore) (layer : String)
    (pre : List String) (p : String) (post : List String) (h : List Cmd) (e : Err)
    (hpeers : r.peer = .ok (pre ++ p :: post))
    (hself : p ≠ r.podIP)
    (hearlier : ∀ a q b e1, pre = a ++ q :: b → q ≠ r.podIP →
      r.client.get (h ++ getCmds P r layer a) (P.getKey q layer) = .error e1 →
      IsRedisNil e1 = true)
    (hfail : r.client.get (h ++ getCmds P r layer pre) (P.getKey p layer) = .error e)
    (hnotnil : IsRedisNil e = false) :
    r.Get P layer h = ((none, some e), h ++ getCmds P r layer (pre ++ [p])) := by
  obtain ⟨ips1, h1⟩ := getLoop_through_reads P r layer pre (p :: post) [] h hearlier
  have hstep : RedisStore.getLoop P r layer (p :: post) ips1 (h ++ getCmds P r layer pre)
      = ((none, some e), h ++ getCmds P r layer pre ++ [Cmd.get (P.getKey p layer)]) := by
    simp only [RedisStore.getLoop, hself, if_false, hfail, hnotnil]
    rfl
  have hcmds : getCmds P r layer (pre ++ [p])
      = getCmds P r layer pre ++ [Cmd.get (P.getKey p layer)] := by
    rw [getCmds_append, getCmds_cons_other P r layer p [] hself]
    rfl
  simp only [RedisStore.Get, hpeers, h1, hstep, hcmds, List.append_assoc]

theorem Get_store_error_aborts_call_witness :
    RedisStore.Get samplePkg
        ⟨"10.0.0.9", .ok (["10.0.0.1", "10.0.0.9"] ++ "10.0.0.2" :: ["10.0.0.3"]),
          outageClient 2⟩ "sha256:aa"
        [Cmd.set "layer:10.0.0.1:sha256:aa" "10.0.0.1" 600]
      = ((none, some (Err.other "connection refused")),
         [Cmd.set "layer:10.0.0.1:sha256:aa" "10.0.0.1" 600]
           ++ getCmds samplePkg ⟨"10.0.0.9", .ok (["10.0.0.1", "10.0.0.9"]
                ++ "10.0.0.2" :: ["10.0.0.3"]), outageClient 2⟩ "sha256:aa"
              (["10.0.0.1", "10.0.0.9"] ++ ["10.0.0.2"])) :=
  Get_store_error_aborts_call samplePkg
    ⟨"10.0.0.9", .ok (["10.0.0.1", "10.0.0.9"] ++ "10.0.0.2" :: ["10.0.0.3"]), outageClient 2⟩
    "sha256:aa" ["10.0.0.1", "10.0.0.9"] "10.0.0.2" ["10.0.0.3"]
    [Cmd.set "layer:10.0.0.1:sha256:aa" "10.0.0.1" 600] (Err.other "connection refused")
    rfl (by decide)
    (by
      intro a q b e1 hsplit hq hget
      rcases a with _ | ⟨a1, _ | ⟨a2, a3⟩⟩
      · simp only [List.nil_append, List.cons.injEq] at hsplit
        obtain ⟨rfl, _⟩ := hsplit
        have hok : (outageClient 2).get ([Cmd.set "layer:10.0.0.1:sha256:aa" "10.0.0.1" 600]
            ++ getCmds samplePkg ⟨"10.0.0.9", .ok (["10.0.0.1", "10.0.0.9"]
                ++ "10.0.0.2" :: ["10.0.0.3"]), outageClient 2⟩ "sha256:aa" [])
            (samplePkg.getKey "10.0.0.1" "sha256:aa") = .ok "10.0.0.1" := by rfl
        rw [hok] at hget
        exact Except.noConfusion hget
      · simp only [List.cons_append, List.nil_append, List.cons.injEq] at hsplit
        exact absurd hsplit.2.1.symm hq
      · simp at hsplit)
    (by rfl) (by decide)

/-- C6: when the peer list was obtained and every read of the key of a peer
other than the caller answers `rueidis.Nil` (no read at all is made for an
empty list or a list holding only the caller), `Get` returns the nil error and
the empty, non-nil slice. -/
theorem Get_absence_is_no_error (P : Pkg) (r : RedisStore) (layer : String)
    (peers : List String) (h : List Cmd)
    (hpeers : r.peer = .ok peers)
    (habsent : ∀ a q b, peers = a ++ q :: b → q ≠ r.podIP →
      r.client.get (h ++ getCmds P r layer a) (P.getKey q layer) = .error Err.redisNil) :
    r.Get P layer h = ((some [], none), h ++ getCmds P r layer peers) := by
  simp only [RedisStore.Get, hpeers]
  exact getLoop_all_absent P r layer peers [] h habsent

theorem Get_absence_is_no_error_witness :
    RedisStore.Get samplePkg ⟨"10.0.0.1", .ok ["10.0.0.1", "10.0.0.2"], kvClient⟩ "sha256:aa"
        [Cmd.set "layer:10.0.0.2:sha256:bb" "10.0.0.2" 600]
      = ((some [], none),
         [Cmd.set "layer:10.0.0.2:sha256:bb" "10.0.0.2" 600]
           ++ getCmds samplePkg ⟨"10.0.0.1", .ok ["10.0.0.1", "10.0.0.2"], kvClient⟩
              "sha256:aa" ["10.0.0.1", "10.0.0.2"]) :=
  Get_absence_is_no_error samplePkg ⟨"10.0.0.1", .ok ["10.0.0.1", "10.0.0.2"], kvClient⟩
    "sha256:aa" ["10.0.0.1", "10.0.0.2"] [Cmd.set "layer:10.0.0.2:sha256:bb" "10.0.0.2" 600] rfl
    (by
      intro a q b hsplit hq
      apply kvClient_get_none
      rw [kvState_append_readOnly _ _ (getCmds_readOnly _ _ _ _)]
      rcases a with _ | ⟨a1, _ | ⟨a2, a3⟩⟩
      · simp only [List.nil_append, List.cons.injEq] at hsplit
        exact absurd hsplit.1.symm hq
      · simp only [List.cons_append, List.nil_append, List.cons.injEq] at hsplit
        obtain ⟨_, rfl, _⟩ := hsplit
        decide
      · simp at hsplit)

/-- C7: when the `SET` of the layer `l` at index `i` is the first to fail, with
error `e`, `Add` returns `e` and has issued exactly the `SET`s of the layers at
indices `0..i` in input order, each with key `getKey(self, layer)`, value
`self` and the expiration window as TTL, and nothing after them: no `SET` for a
later layer and no command undoing an earlier one.  When no `SET` fails `Add`
issues them all and returns nil; for the empty list it issues no command. -/
theorem Add_aborts_at_first_failing_write (P : Pkg) (r : RedisStore) (h : List Cmd) :
    (∀ (pre : List String) (l : String) (post : List String) (e : Err),
      (∀ a q b, pre = a ++ q :: b →
        r.client.set (h ++ setCmds P r a) (P.getKey r.podIP q) r.podIP P.expirationSeconds
          = none) →
      r.client.set (h ++ setCmds P r pre) (P.getKey r.podIP l) r.podIP P.expirationSeconds
        = some e →
      r.Add P (pre ++ l :: post) h
        = (some e, h ++ pre.map (fun x => Cmd.set (P.getKey r.podIP x) r.podIP
              P.expirationSeconds)
            ++ [Cmd.set (P.getKey r.podIP l) r.podIP P.expirationSeconds]))
    ∧ (∀ layers : List String,
      (∀ a q b, layers = a ++ q :: b →
        r.client.set (h ++ setCmds P r a) (P.getKey r.podIP q) r.podIP P.expirationSeconds
          = none) →
      r.Add P layers h
        = (none, h ++ layers.map (fun x => Cmd.set (P.getKey r.podIP x) r.podIP
              P.expirationSeconds)))
    ∧ r.Add P [] h = (none, h) := by
  refine ⟨?_, ?_, rfl⟩
  · intro pre l post e hok hfail
    rw [Add_first_failure P r pre l post e h hok hfail]
    simp [setCmds, List.append_assoc]
  · intro layers hok
    rw [Add_all_succeed P r layers h hok]
    rfl

theorem Add_aborts_at_first_failing_write_witness :
    RedisStore.Add samplePkg ⟨"10.0.0.1", .ok [], outageClient 2⟩
        (["sha256:aa", "sha256:bb"] ++ "sha256:cc" :: ["sha256:dd"]) []
      = (some (Err.other "connection refused"),
         [] ++ ["sha256:aa", "sha256:bb"].map (fun x =>
              Cmd.set (samplePkg.getKey "10.0.0.1" x) "10.0.0.1" samplePkg.expirationSeconds)
            ++ [Cmd.set (samplePkg.getKey "10.0.0.1" "sha256:cc") "10.0.0.1"
                  samplePkg.expirationSeconds])
    ∧ RedisStore.Add samplePkg ⟨"10.0.0.1", .ok [], outageClient 2⟩
        ["sha256:aa", "sha256:bb"] []
      = (none, [] ++ ["sha256:aa", "sha256:bb"].map (fun x =>
              Cmd.set (samplePkg.getKey "10.0.0.1" x) "10.0.0.1"
                samplePkg.expirationSeconds)) :=
  have hok : ∀ (a : List String) (q : String) (b : List String),
      ["sha256:aa", "sha256:bb"] = a ++ q :: b →
      (outageClient 2).set ([] ++ setCmds samplePkg ⟨"10.0.0.1", .ok [], outageClient 2⟩ a)
        (samplePkg.getKey "10.0.0.1" q) "10.0.0.1" samplePkg.expirationSeconds = none := by
    intro a q b hsplit
    have hlen : a.length < 2 := by
      have := congrArg List.length hsplit
      simp at this
      omega
    simp [outageClient, setCmds, hlen]
  ⟨(Add_aborts_at_first_failing_write samplePkg ⟨"10.0.0.1", .ok [], outageClient 2⟩ []).1
      ["sha256:aa", "sha256:bb"] "sha256:cc" ["sha256:dd"] (Err.other "connection refused")
      hok (by decide),
   (Add_aborts_at_first_failing_write samplePkg ⟨"10.0.0.1", .ok [], outageClient 2⟩ []).2.1
      ["sha256:aa", "sha256:bb"] hok⟩

/-- C8: whatever the store answers to each `DEL` (success, failure or key
already absent), `Remove` issues exactly one `DEL` per element of the list, in
input order, each for key `getKey(self, layer)`, so a failing deletion stops
none of the later ones; and when no `DEL` answers an error, as for a record
that is already absent, `Remove` returns the nil error. -/
theorem Remove_is_best_effort (P : Pkg) (r : RedisStore) (layers : List String)
    (h : List Cmd) :
    (r.Remove P layers h).2 = h ++ layers.map (fun l => Cmd.del (P.getKey r.podIP l))
    ∧ ((∀ a q b, layers = a ++ q :: b →
          r.client.del (h ++ delCmds P r a) (P.getKey r.podIP q) = none) →
        (r.Remove P layers h).1 = none) := by
  rw [Remove_eq]
  exact ⟨rfl, fun _ => rfl⟩

theorem Remove_is_best_effort_witness :
    (RedisStore.Remove samplePkg ⟨"10.0.0.1", .ok [], kvClient⟩ ["sha256:aa", "sha256:bb"]
        [Cmd.set "layer:10.0.0.1:sha256:bb" "10.0.0.1" 600]).2
      = [Cmd.set "layer:10.0.0.1:sha256:bb" "10.0.0.1" 600]
          ++ ["sha256:aa", "sha256:bb"].map (fun l => Cmd.del (samplePkg.getKey "10.0.0.1" l))
    ∧ (RedisStore.Remove samplePkg ⟨"10.0.0.1", .ok [], kvClient⟩ ["sha256:aa", "sha256:bb"]
        [Cmd.set "layer:10.0.0.1:sha256:bb" "10.0.0.1" 600]).1 = none :=
  ⟨(Remove_is_best_effort samplePkg ⟨"10.0.0.1", .ok [], kvClient⟩ ["sha256:aa", "sha256:bb"]
      [Cmd.set "layer:10.0.0.1:sha256:bb" "10.0.0.1" 600]).1,
   (Remove_is_best_effort samplePkg ⟨"10.0.0.1", .ok [], kvClient⟩ ["sha256:aa", "sha256:bb"]
      [Cmd.set "layer:10.0.0.1:sha256:bb" "10.0.0.1" 600]).2 (fun _ _ _ _ => rfl)⟩

/-- C9, counterexample: the store holds two live presence records and its
`SCAN` chain answers two pages, only the last with cursor 0, the second page
listing again a key of the first (a `SCAN` may return an element several
times).  `Dump` returns nil error and three entries for the two live records. -/
theorem Dump_counts_repeated_key_twice :
    ScanPages
        (pagedClient [⟨["layer:10.0.0.1:sha256:aa", "layer:10.0.0.2:sha256:aa"], 1⟩,
          ⟨["layer:10.0.0.1:sha256:aa"], 0⟩])
        [Cmd.set "layer:10.0.0.1:sha256:aa" "10.0.0.1" 600,
         Cmd.set "layer:10.0.0.2:sha256:aa" "10.0.0.2" 600]
        0
        [⟨["layer:10.0.0.1:sha256:aa", "layer:10.0.0.2:sha256:aa"], 1⟩,
          ⟨["layer:10.0.0.1:sha256:aa"], 0⟩]
    ∧ kvState [Cmd.set "layer:10.0.0.1:sha256:aa" "10.0.0.1" 600,
         Cmd.set "layer:10.0.0.2:sha256:aa" "10.0.0.2" 600]
        = [("layer:10.0.0.2:sha256:aa", "10.0.0.2"), ("layer:10.0.0.1:sha256:aa", "10.0.0.1")]
    ∧ (RedisStore.Dump ⟨"10.0.0.3", .ok [],
          pagedClient [⟨["layer:10.0.0.1:sha256:aa", "layer:10.0.0.2:sha256:aa"], 1⟩,
            ⟨["layer:10.0.0.1:sha256:aa"], 0⟩]⟩ 2
          [Cmd.set "layer:10.0.0.1:sha256:aa" "10.0.0.1" 600,
           Cmd.set "layer:10.0.0.2:sha256:aa" "10.0.0.2" 600]).1
        = some (some ["layer:10.0.0.1:sha256:aa", "layer:10.0.0.2:sha256:aa",
            "layer:10.0.0.1:sha256:aa"], none)
    ∧ ["layer:10.0.0.1:sha256:aa", "layer:10.0.0.2:sha256:aa",
        "layer:10.0.0.1:sha256:aa"].length
        ≠ (kvState [Cmd.set "layer:10.0.0.1:sha256:aa" "10.0.0.1" 600,
            Cmd.set "layer:10.0.0.2:sha256:aa" "10.0.0.2" 600]).length :=
  ⟨ScanPages.next _ _ _ _ rfl (by decide) (ScanPages.last _ _ _ rfl rfl),
   by decide, by decide, by decide⟩

/-- C9, amended: over a store whose `SCAN` chain for the pattern `layer:*`,
started at cursor 0 and continued from each returned cursor, answers `n >= 1`
pages of which only the last carries cursor 0, `Dump` (given at least `n`
iterations) issues exactly those `n` `SCAN`s and returns the nil error with the
elements of all pages concatenated in page order, so that the number of
returned entries is the total number of elements of the `n` pages; and when a
`SCAN` fails after some pages, `Dump` returns that error with the nil slice. -/
theorem Dump_paginates_to_completion (r : RedisStore) (h : List Cmd) :
    (∀ pages : List ScanEntry, ScanPages r.client h 0 pages →
      ∀ fuel, pages.length ≤ fuel →
        r.Dump fuel h
          = (some (some (pages.flatMap ScanEntry.Elements), none), h ++ scanCmds 0 pages)
        ∧ (scanCmds 0 pages).length = pages.length
        ∧ 1 ≤ pages.length
        ∧ ∃ data, (r.Dump fuel h).1 = some (some data, none) ∧
            data.length = (pages.map (fun pg => pg.Elements.length)).sum)
    ∧ (∀ (pages : List ScanEntry) (e : Err), ScanFails r.client h 0 pages e →
      ∀ fuel, pages.length + 1 ≤ fuel →
        r.Dump fuel h
          = (some (none, some e),
             h ++ scanCmds 0 pages ++ [Cmd.scan (cursorAfter 0 pages) "layer:*"])) := by
  constructor
  · intro pages hp fuel hfuel
    have hrun := dumpLoop_pages r h 0 pages hp fuel ⟨[], 0⟩ [] hfuel rfl
    simp only [List.nil_append] at hrun
    refine ⟨hrun, scanCmds_length 0 pages, ?_, ?_⟩
    · cases hp <;> simp
    · exact ⟨_, by rw [RedisStore.Dump, hrun], length_flatMap_Elements pages⟩
  · intro pages e hp fuel hfuel
    exact dumpLoop_fails r h 0 pages e hp fuel ⟨[], 0⟩ [] hfuel rfl

theorem Dump_paginates_to_completion_witness :
    RedisStore.Dump ⟨"10.0.0.1", .ok [],
        pagedClient [⟨["layer:10.0.0.1:sha256:aa", "layer:10.0.0.2:sha256:aa"], 1⟩,
          ⟨[], 2⟩, ⟨["layer:10.0.0.2:sha256:bb"], 0⟩]⟩ 3 []
      = (some (some ["layer:10.0.0.1:sha256:aa", "layer:10.0.0.2:sha256:aa",
            "layer:10.0.0.2:sha256:bb"], none),
         [Cmd.scan 0 "layer:*", Cmd.scan 1 "layer:*", Cmd.scan 2 "layer:*"])
    ∧ RedisStore.Dump ⟨"10.0.0.1", .ok [],
        pagedClient [⟨["layer:10.0.0.1:sha256:aa"], 1⟩, ⟨["layer:10.0.0.2:sha256:aa"], 7⟩]⟩ 3 []
      = (some (none, some (Err.other "invalid cursor")),
         [Cmd.scan 0 "layer:*", Cmd.scan 1 "layer:*", Cmd.scan 7 "layer:*"]) :=
  ⟨((Dump_paginates_to_completion ⟨"10.0.0.1", .ok [],
        pagedClient [⟨["layer:10.0.0.1:sha256:aa", "layer:10.0.0.2:sha256:aa"], 1⟩,
          ⟨[], 2⟩, ⟨["layer:10.0.0.2:sha256:bb"], 0⟩]⟩ []).1
      [⟨["layer:10.0.0.1:sha256:aa", "layer:10.0.0.2:sha256:aa"], 1⟩,
        ⟨[], 2⟩, ⟨["layer:10.0.0.2:sha256:bb"], 0⟩]
      (ScanPages.next _ _ _ _ rfl (by decide)
        (ScanPages.next _ _ _ _ rfl (by decide)
          (ScanPages.last _ _ _ rfl rfl)))
      3 (by decide)).1,
   (Dump_paginates_to_completion ⟨"10.0.0.1", .ok [],
        pagedClient [⟨["layer:10.0.0.1:sha256:aa"], 1⟩, ⟨["layer:10.0.0.2:sha256:aa"], 7⟩]⟩
        []).2
      [⟨["layer:10.0.0.1:sha256:aa"], 1⟩, ⟨["layer:10.0.0.2:sha256:aa"], 7⟩]
      (Err.other "invalid cursor")
      (ScanFails.next _ _ _ _ _ rfl (by decide)
        (ScanFails.next _ _ _ _ _ rfl (by decide)
          (ScanFails.fail _ _ _ rfl)))
      3 (by decide)⟩

/-- C10: whatever the store answers, every mutating command (`SET`, `DEL`,
`EXPIRE`) that `Add`, `Remove` or `ResetExpiration` issues targets the key
`getKey(self, l)` of some layer `l` of the input list, and `Get` and `Dump`
issue no mutating command. -/
theorem writes_are_scoped_to_caller (P : Pkg) (r : RedisStore) (layers : List String)
    (layer : String) (fuel : Nat) (h : List Cmd) :
    (∃ cmds, (r.Add P layers h).2 = h ++ cmds ∧
      ∀ c ∈ cmds, Cmd.mutating c = true → ∃ l ∈ layers, Cmd.key c = some (P.getKey r.podIP l))
    ∧ (∃ cmds, (r.Remove P layers h).2 = h ++ cmds ∧
      ∀ c ∈ cmds, Cmd.mutating c = true → ∃ l ∈ layers, Cmd.key c = some (P.getKey r.podIP l))
    ∧ (∃ cmds, (r.ResetExpiration P layers h).2 = h ++ cmds ∧
      ∀ c ∈ cmds, Cmd.mutating c = true → ∃ l ∈ layers, Cmd.key c = some (P.getKey r.podIP l))
    ∧ (∃ cmds, (r.Get P layer h).2 = h ++ cmds ∧ ∀ c ∈ cmds, Cmd.mutating c = false)
    ∧ (∃ cmds, (r.Dump fuel h).2 = h ++ cmds ∧ ∀ c ∈ cmds, Cmd.mutating c = false) := by
  refine ⟨?_, ?_, ?_, ?_, ?_⟩
  · obtain ⟨cmds, hlog, hall⟩ := Add_log P r layers h
    refine ⟨cmds, hlog, fun c hc _ => ?_⟩
    obtain ⟨l, hl, rfl⟩ := hall c hc
    exact ⟨l, hl, rfl⟩
  · refine ⟨delCmds P r layers, by rw [Remove_eq], fun c hc _ => ?_⟩
    simp only [delCmds, List.mem_map] at hc
    obtain ⟨l, hl, rfl⟩ := hc
    exact ⟨l, hl, rfl⟩
  · obtain ⟨cmds, hlog, hall⟩ := ResetExpiration_log P r layers h
    refine ⟨cmds, hlog, fun c hc _ => ?_⟩
    obtain ⟨l, hl, rfl⟩ := hall c hc
    exact ⟨l, hl, rfl⟩
  · cases hpeer : r.peer with
    | error e => exact ⟨[], by simp [RedisStore.Get, hpeer], by simp⟩
    | ok peers =>
      obtain ⟨cmds, hlog, hall⟩ := getLoop_log P r layer peers [] h
      refine ⟨cmds, by simp only [RedisStore.Get, hpeer]; exact hlog, fun c hc => ?_⟩
      obtain ⟨p, _, _, rfl⟩ := hall c hc
      rfl
  · obtain ⟨cmds, hlog, hall⟩ := dumpLoop_log r fuel ⟨[], 0⟩ [] h
    refine ⟨cmds, hlog, fun c hc => ?_⟩
    obtain ⟨cur, rfl⟩ := hall c hc
    rfl

end Spegel
